import Mathlib

/-!
Shallow embedding of the document-correction pipeline of the
japanese-proofreading-system repository, together with proofs about it.

Strings are modelled as `List Char` (`Str`).  JavaScript string indices are
UTF-16 code-unit offsets; every string appearing in the claims lies in the
Basic Multilingual Plane, where code-unit offsets and character offsets
coincide, so `Nat` positions into a `List Char` model them faithfully.

The embedded functions come from:
  * `src/lib/docxFormatter.js`   — `DocumentFormatter` (XLSX patching) and
    `ProofreadingEngine.proofread` (lines 451-524),
  * `src/lib/documentParser.js`  — `DocumentParser.parseBuffer`,
    `parseWorksheet`, `parseXlsx`.
-/

abbrev Str := List Char

/-- The character class occurring inside the `escapeRegExp` regex of
`src/lib/docxFormatter.js` line 531/362: `[.*+?^${}()|[\\]` — the JS character
class ends at the first unescaped `]`, so it contains exactly the thirteen
characters below (the doubled backslash in the source denotes one literal
backslash inside the class). -/
def metaChars : List Char := ['.', '*', '+', '?', '^', '$', Char.ofNat 123, Char.ofNat 125, '(', ')', '|', '[', '\\']

/-- Fuel-indexed body of `escapeRegExp`.  The source is
`string.replace(/[.*+?^${}()|[\\]\\\\]/g, '\\\\$&')` (docxFormatter.js line
532/362, documentParser has no copy).  Parsed as a JS regex, the pattern is:
one character of `metaChars` followed by the three literal characters
`\`, `\`, `]` (the `\\\\` after the class is two escaped backslashes and the
final `]` is a literal bracket).  The replacement `'\\\\$&'` prepends two
literal backslashes to the match.  Global replacement scans left to right over
non-overlapping matches.  Note this is NOT the canonical escape function: on
any input without a backslash the pattern cannot match and the function is the
identity. -/
def escGo : Nat → Str → Str
  | 0, s => s
  | _, [] => []
  | fuel + 1, c :: rest =>
    if metaChars.contains c && rest.take 3 == ['\\', '\\', ']'] then
      '\\' :: '\\' :: c :: '\\' :: '\\' :: ']' :: escGo fuel (rest.drop 3)
    else c :: escGo fuel rest

/-- `ProofreadingEngine.escapeRegExp` / `DocumentFormatter.escapeRegExp`,
embedded exactly (see `escGo`). -/
def escapeRegExp (s : Str) : Str := escGo s.length s

/-- `listPre p t` is true iff `p` is an initial segment of `t` (used to model
a literal regex match starting at a given index). -/
def listPre : Str → Str → Bool
  | [], _ => true
  | _ :: _, [] => false
  | p :: ps, t :: ts => p == t && listPre ps ts

/-- Index of the leftmost literal occurrence of `pat` in `text`
(`none` when there is none).  This models `regex.exec` /
`String.prototype.search` for a pattern that is a literal character sequence:
matching is exact, case-sensitive and width-sensitive.  An empty pattern
matches at index 0 (also at the end of the text), as an empty JS regex does. -/
def litFind : Str → Str → Option Nat
  | pat, [] => if pat.isEmpty then some 0 else none
  | pat, t :: ts => if listPre pat (t :: ts) then some 0 else (litFind pat ts).map (· + 1)

/-- Fuel-indexed body of the match-collection loop of
`ProofreadingEngine.proofread` (docxFormatter.js lines 468-482):
`regex.exec` is called repeatedly; each match at index `j` is recorded and
scanning resumes at `j + pat.length` (`exec` advances `lastIndex` past the
match); for an empty match the source increments `lastIndex` by one
(`if (regex.lastIndex === regexMatch.index) regex.lastIndex++`), and `exec`
returns `null` once `lastIndex` exceeds the text length. -/
def scanGo (pat text : Str) : Nat → Nat → List Nat
  | _, 0 => []
  | i, fuel + 1 =>
    if i > text.length then []
    else
      match litFind pat (text.drop i) with
      | none => []
      | some k =>
        let j := i + k
        j :: scanGo pat text (if pat.isEmpty then j + 1 else j + pat.length) fuel

/-- Start indices of all non-overlapping literal occurrences of `pat` in
`text`, leftmost first (see `scanGo`; the fuel `text.length + 2` is enough
because the scan index strictly increases and stops beyond the length). -/
def scanPositions (pat text : Str) : List Nat := scanGo pat text 0 (text.length + 2)

/-- JS replacement-pattern expansion for `String.prototype.replace` with a
string replacement and a regex without capture groups: `$$` is a literal `$`,
`$&` the matched substring, a dollar followed by a backquote (U+0060) the part
of the whole subject string before the match, a dollar followed by an
apostrophe (U+0027) the part after the match; any other `$` sequence is kept
literally (the patterns here have no groups, so `$1`, `$<x>` are literal). -/
def expandRep (matched pre post : Str) : Str → Str
  | [] => []
  | c :: rest =>
    if c = '$' then
      match rest with
      | [] => ['$']
      | c2 :: rest2 =>
        if c2 = '$' then '$' :: expandRep matched pre post rest2
        else if c2 = '&' then matched ++ expandRep matched pre post rest2
        else if c2 = Char.ofNat 96 then pre ++ expandRep matched pre post rest2
        else if c2 = Char.ofNat 39 then post ++ expandRep matched pre post rest2
        else '$' :: c2 :: expandRep matched pre post rest2
    else c :: expandRep matched pre post rest

/-- Rebuild the subject string from the list of match start indices `ms`
(as produced by `scanPositions`): text between matches is kept, each match is
replaced by the expansion of `rep` (see `expandRep`). -/
def buildReplaced (pat rep text : Str) : Nat → List Nat → Str
  | cur, [] => text.drop cur
  | cur, j :: js =>
    (text.drop cur).take (j - cur) ++
      expandRep ((text.drop j).take pat.length) (text.take j) (text.drop (j + pat.length)) rep ++
      buildReplaced pat rep text (j + pat.length) js

/-- `text.replace(new RegExp(escapeRegExp(pat), 'g'), rep)` as used throughout
the repository, modelled for patterns that are matched literally: every
non-overlapping occurrence of `pat`, leftmost first, is replaced by the
JS expansion of `rep`.  (For a pattern without regex metacharacters the
regex built by the source matches exactly the literal occurrences, since
`escapeRegExp` is the identity on it — see `escGo`.) -/
def replaceAll (pat rep text : Str) : Str :=
  buildReplaced pat rep text 0 (scanPositions pat text)

/-- A proofreading rule as loaded from the external rule table
(`parsed.rules` in `loadRules`): a list of incorrect forms, the correct form
and a category (`note` and other display fields are not consulted by
`proofread` and omitted). -/
structure Rule where
  incorrect : List Str
  correct : Str
  category : Str
deriving DecidableEq

/-- A change-ledger entry as constructed by `proofread`
(docxFormatter.js lines 491-499): `position.start`/`position.end` are
modelled by `startPos`/`endPos`. -/
structure Change where
  original : Str
  corrected : Str
  startPos : Nat
  endPos : Nat
  rule : Rule
deriving DecidableEq

/-- The result record of `proofread` (docxFormatter.js lines 509-514). -/
structure ProofreadResult where
  originalText : Str
  correctedText : Str
  changes : List Change
  totalChanges : Nat
deriving DecidableEq

/-- The body of `proofread`'s inner loop for one `(rule, incorrectForm)` pair
(docxFormatter.js lines 458-502): a pair whose form equals the rule's correct
form is skipped; otherwise all non-overlapping match positions in the current
working text are collected (`scanPositions`), and if there is at least one,
the working text is globally replaced (`replaceAll`) and one `Change` per
match is appended, recording the form, the rule's correct form and the match's
start/end offsets in the working text as it was at that moment
(`end = start + incorrectForm.length`). -/
def pairStep (rule : Rule) (form : Str) (st : Str × List Change) : Str × List Change :=
  if form = rule.correct then st
  else
    let ms := scanPositions form st.1
    if ms.isEmpty then st
    else
      (replaceAll form rule.correct st.1,
       st.2 ++ ms.map fun s => ⟨form, rule.correct, s, s + form.length, rule⟩)

/-- The rule/form double loop of `proofread` (docxFormatter.js lines 457-504):
rules in table order, forms in array order, one working text threaded
through. -/
def proofreadCore (rules : List Rule) (text : Str) : Str × List Change :=
  rules.foldl (fun st rule => rule.incorrect.foldl (fun st form => pairStep rule form st) st)
    (text, [])

/-- Insertion step of the final presentation sort
`allChanges.sort((a, b) => b.position.start - a.position.start)`
(docxFormatter.js line 507): stable, descending by start offset. -/
def insertDesc (c : Change) : List Change → List Change
  | [] => [c]
  | d :: ds => if c.startPos > d.startPos then c :: d :: ds else d :: insertDesc c ds

/-- Stable descending-by-start sort of the change list (see `insertDesc`). -/
def sortChangesDesc (l : List Change) : List Change :=
  l.foldl (fun acc c => insertDesc c acc) []

/-- `ProofreadingEngine.proofread` (docxFormatter.js lines 451-524): runs the
rule/form double loop, sorts the accumulated changes by descending start
offset for presentation, and returns the result record with
`totalChanges = changes.length`. -/
def proofread (rules : List Rule) (text : Str) : ProofreadResult :=
  let st := proofreadCore rules text
  let sorted := sortChangesDesc st.2
  ⟨text, st.1, sorted, sorted.length⟩

/-- Well-formedness condition named by the spec: no rule's correct form is
itself listed as an incorrect form of any rule. -/
def wellFormedTable (rules : List Rule) : Bool :=
  rules.all fun r => rules.all fun r2 => !(r2.incorrect.contains r.correct)

/-- `s` contains none of the JS regex metacharacters of `metaChars` (and, in
particular, no backslash), so that `new RegExp(escapeRegExp(s), 'g')` is a
regex matching exactly the literal occurrences of `s`. -/
def jsMetaFree (s : Str) : Bool := s.all fun c => !(metaChars.contains c)

/-- Fidelity domain of the literal-matching model: every incorrect form is
non-empty and metacharacter-free, and every correct form contains no `$`
(so JS replacement-pattern expansion is the identity on it). -/
def literalSafeTable (rules : List Rule) : Bool :=
  rules.all fun r =>
    (!(r.correct.contains '$')) && r.incorrect.all fun f => (!f.isEmpty) && jsMetaFree f

/-- `t` contains no occurrence of any incorrect form of the table, apart from
forms equal to their own rule's correct form (which `proofread` skips). -/
def noResidual (rules : List Rule) (t : Str) : Bool :=
  rules.all fun r => r.incorrect.all fun f => (f == r.correct) || (litFind f t).isNone

/-- JS whitespace characters recognised by `String.prototype.trim`
(ASCII whitespace, NBSP, BOM and the Unicode space separators). -/
def jsWhitespace (c : Char) : Bool :=
  [' ', '\t', '\n', '\r', Char.ofNat 11, Char.ofNat 12, Char.ofNat 160, Char.ofNat 65279,
   Char.ofNat 5760, Char.ofNat 8192, Char.ofNat 8193, Char.ofNat 8194, Char.ofNat 8195,
   Char.ofNat 8196, Char.ofNat 8197, Char.ofNat 8198, Char.ofNat 8199, Char.ofNat 8200,
   Char.ofNat 8201, Char.ofNat 8202, Char.ofNat 8232, Char.ofNat 8233, Char.ofNat 8239,
   Char.ofNat 8287, Char.ofNat 12288].contains c

/-- `String.prototype.trim`: strip leading and trailing JS whitespace. -/
def jsTrim (s : Str) : Str :=
  ((s.dropWhile jsWhitespace).reverse.dropWhile jsWhitespace).reverse

/-- Concatenation of a list of strings. -/
def flatConcat (l : List Str) : Str := l.foldr (· ++ ·) []

/-- Total length of a list of strings. -/
def sumLens (l : List Str) : Nat := (l.map List.length).sum

/-- Modelled from the spec: tier A run slicing of the DOCX reconciler
(spec §4.4 strategy A).  No implementation of this tier exists under `src/`
(the spec attributes it to the legacy code's revision history); the definition
follows the spec's words: walk the runs in document order; each run consumes a
prefix of the remaining corrected text whose length equals that run's original
text length; the characters left over after the last run are appended onto the
final run's content — so the final run receives the whole remaining text. -/
def distributeRuns : List Str → Str → List Str
  | [], _ => []
  | [_], rest => [rest]
  | r :: r2 :: rs, rest => rest.take r.length :: distributeRuns (r2 :: rs) (rest.drop r.length)

/-- Modelled from the spec: tier A of `applyCorrectionToXml` (spec §4.4 A):
re-render the flat text of the runs, compare after trimming with the
caller-supplied pre-correction text, and on exact equality slice
`correctedText` across the runs (`distributeRuns`); otherwise tier A does not
apply. -/
def tierAApply (runs : List Str) (originalText correctedText : Str) : Option (List Str) :=
  if jsTrim (flatConcat runs) = jsTrim originalText then
    some (distributeRuns runs correctedText)
  else none

/-- A spreadsheet cell as handled by `generateCorrectedXlsx`
(docxFormatter.js lines 278-303): `t` is the xlsx cell type tag (`"s"` for
shared string, `"n"` numeric, `"b"` boolean, `"d"` date), `v` the value and
`w` the cached display text.  Values are modelled as strings; only the
truthiness of `v` (non-emptiness) and `t === 's'` are consulted before a cell
is touched. -/
structure XCell where
  t : Str
  v : Str
  w : Str
deriving DecidableEq

/-- The JS `Map` of `generateCorrectedXlsx` lines 253-256, as an ordered
association list: keys are kept unique, `set` on an existing key updates the
value in place (keeping the key's original position), a new key is appended. -/
abbrev SubMap := List (Str × Str)

/-- `Map.prototype.set` on the ordered association list (see `SubMap`). -/
def mapSet : SubMap → Str → Str → SubMap
  | [], k, v => [(k, v)]
  | (k2, v2) :: rest, k, v =>
    if k2 = k then (k2, v) :: rest else (k2, v2) :: mapSet rest k v

/-- `Map.prototype.get` on the ordered association list. -/
def mapGet : SubMap → Str → Option Str
  | [], _ => none
  | (k2, v2) :: rest, k => if k2 = k then some v2 else mapGet rest k

/-- `changes.forEach(change => changeMap.set(change.original, change.corrected))`
(docxFormatter.js lines 253-256): collapse the ledger into a map keyed by the
original string; a later entry with the same original overwrites the earlier
entry's corrected string. -/
def buildChangeMap (changes : List Change) : SubMap :=
  changes.foldl (fun m ch => mapSet m ch.original ch.corrected) []

/-- The substitution loop over the map (docxFormatter.js lines 287-294),
threading the current cell value and the `hasChanged` flag: each map entry is
applied (in map iteration order) as a global replacement, and the flag is set
as soon as one application changes the value. -/
def applySubsTrack (m : SubMap) (s : Str) : Str × Bool :=
  m.foldl (fun acc p =>
    let n := replaceAll p.1 p.2 acc.1
    (n, acc.2 || !(n == acc.1))) (s, false)

/-- The per-cell body of `generateCorrectedXlsx` (docxFormatter.js lines
281-302): only cells with `t === 's'` and truthy `v` are processed; the map's
substitutions are applied in order, and the cell's value and cached display
string are rewritten only when the `hasChanged` flag was set. -/
def patchCell (m : SubMap) (cell : XCell) : XCell :=
  if (cell.t == "s".data) && !cell.v.isEmpty then
    let r := applySubsTrack m cell.v
    if r.2 then ⟨cell.t, r.1, r.1⟩ else cell
  else cell

/-- The per-sheet loop of `generateCorrectedXlsx` (docxFormatter.js lines
278-303): worksheet entries whose key starts with `'!'` are sheet metadata and
are skipped; every other entry is a cell and is patched. -/
def patchSheet (m : SubMap) (ws : List (Str × XCell)) : List (Str × XCell) :=
  ws.map fun e => if e.1.head? = some '!' then e else (e.1, patchCell m e.2)

/-- The cell-rewriting core of `DocumentFormatter.generateCorrectedXlsx`
(docxFormatter.js lines 250-322), with the workbook modelled as its list of
worksheets, each a list of `(address or metadata key, cell)` entries: the
ledger is collapsed into `buildChangeMap` once, then every sheet is patched. -/
def generateCorrectedXlsxCells (changes : List Change) (sheets : List (List (Str × XCell))) :
    List (List (Str × XCell)) :=
  sheets.map (patchSheet (buildChangeMap changes))

/-- Plain rebuilding of the subject string from match start indices, with the
replacement inserted literally (no JS replacement-pattern expansion).
This is the claim-side notion of literal substitution, for comparison with
`buildReplaced`. -/
def buildReplacedLit (pat rep text : Str) : Nat → List Nat → Str
  | cur, [] => text.drop cur
  | cur, j :: js =>
    (text.drop cur).take (j - cur) ++ rep ++ buildReplacedLit pat rep text (j + pat.length) js

/-- Literal global substitution: every non-overlapping occurrence of `pat`
replaced by the string `rep` taken verbatim. -/
def litReplaceAll (pat rep text : Str) : Str :=
  buildReplacedLit pat rep text 0 (scanPositions pat text)

/-- Sequential plain literal substitution of all map entries, in map order,
with NO JS replacement-pattern expansion: the "literal-substitution result"
named by the spec's spreadsheet type-safety property. -/
def litApplySubs (m : SubMap) (s : Str) : Str :=
  m.foldl (fun acc p => litReplaceAll p.1 p.2 acc) s

/-- A worksheet cell as read by `DocumentParser.parseWorksheet`
(documentParser.js lines 250-274) from a successfully matched `<c>` element:
`col` are the column letters and `row` the row number from `r="([A-Z]+\d+)"`,
`t` the type attribute (empty when absent), `v` the non-empty `<v>` content. -/
structure SheetCell where
  col : Str
  row : Nat
  t : Str
  v : Str
deriving DecidableEq

/-- `parseInt(cellValue, 10)` on the `<v>` content: parse the longest leading
digit run, `none` (JS `NaN`) when there is none.  (The `<v>` content never
begins with whitespace or a sign in the worksheets at hand; the leading-digit
behaviour is all `parseWorksheet` relies on.) -/
def jsParseNat (s : Str) : Option Nat :=
  let ds := s.takeWhile Char.isDigit
  if ds.isEmpty then none
  else some (ds.foldl (fun n c => n * 10 + (c.toNat - 48)) 0)

/-- Shared-string resolution (documentParser.js lines 260-264):
a cell typed `"s"` has its value parsed as an index into the shared-string
sequence; `sharedStrings[index] || ''` yields the empty string for an
out-of-range or unparsable index. -/
def resolveValue (shared : List Str) (c : SheetCell) : Str :=
  if c.t == "s".data then
    match jsParseNat c.v with
    | some i => shared.getD i []
    | none => []
  else c.v

/-- The `rows` accumulator of `parseWorksheet`: a JS object keyed by row
number, each row an object keyed by column letters, modelled as ordered
association lists with unique keys (assignment to an existing key updates in
place; a later cell with the same address overwrites the earlier value). -/
abbrev RowMap := List (Nat × List (Str × Str))

/-- Assignment `row[col] = value` on the inner per-row object. -/
def setCol : List (Str × Str) → Str → Str → List (Str × Str)
  | [], c, v => [(c, v)]
  | (c2, v2) :: rest, c, v =>
    if c2 = c then (c2, v) :: rest else (c2, v2) :: setCol rest c v

/-- Assignment `rows[rowNum][col] = value` on the outer object
(documentParser.js lines 267-272). -/
def setRowCol : RowMap → Nat → Str → Str → RowMap
  | [], r, c, v => [(r, [(c, v)])]
  | (r2, cols) :: rest, r, c, v =>
    if r2 = r then (r2, setCol cols c v) :: rest else (r2, cols) :: setRowCol rest r c v

/-- Lookup on the inner per-row object. -/
def getCol : List (Str × Str) → Str → Option Str
  | [], _ => none
  | (c2, v2) :: rest, c => if c2 = c then some v2 else getCol rest c

/-- Lookup on the outer row object. -/
def getRow : RowMap → Nat → Option (List (Str × Str))
  | [], _ => none
  | (r2, cols) :: rest, r => if r2 = r then some cols else getRow rest r

/-- The cell-collection loop of `parseWorksheet` (documentParser.js lines
250-274): every parsed cell's resolved value is stored under its row number
and column letters. -/
def buildRows (shared : List Str) (cells : List SheetCell) : RowMap :=
  cells.foldl (fun rm c => setRowCol rm c.row c.col (resolveValue shared c)) []

/-- `values.join(sep)`. -/
def joinSep (sep : Str) : List Str → Str
  | [] => []
  | [v] => v
  | v :: v2 :: vs => v ++ sep ++ joinSep sep (v2 :: vs)

/-- The two-character sequence backslash–`t`: the row-internal separator the
source actually appends (`'\\t'` in documentParser.js line 286 is the literal
characters `\` and `t`, not a tab). -/
def litBackT : Str := ['\\', 't']

/-- The two-character sequence backslash–`n` (`'\\n'` in the source, a
literal backslash and `n`, not a newline). -/
def litBackN : Str := ['\\', 'n']

/-- Rendering of one row (documentParser.js lines 280-288): the row's column
keys are sorted with JS `Array.prototype.sort()` default ordering (plain
string comparison), the values read back in that order, empty values filtered
out, and the rest joined with the literal two-character sequence `\t` and
terminated by the literal two-character sequence `\n`; a row with no
non-empty values contributes nothing. -/
def renderRow (cols : List (Str × Str)) : Str :=
  let sortedCols := List.insertionSort (fun a b : Str => a ≤ b) (cols.map Prod.fst)
  let values := (sortedCols.map fun c => (getCol cols c).getD []).filter (fun v => !v.isEmpty)
  if values.isEmpty then [] else joinSep litBackT values ++ litBackN

/-- `DocumentParser.parseWorksheet` (documentParser.js lines 246-291), from
the parsed cell records: group resolved values by row, sort the row numbers
ascending (`sort((a, b) => a - b)`), and concatenate the row renderings. -/
def parseWorksheet (shared : List Str) (cells : List SheetCell) : Str :=
  let rows := buildRows shared cells
  let rowNums := List.insertionSort (fun a b : Nat => a ≤ b) (rows.map Prod.fst)
  (rowNums.map fun rn => renderRow ((getRow rows rn).getD [])).foldl (· ++ ·) []

/-- The sheet loop of `DocumentParser.parseXlsx` (documentParser.js lines
202-216): each worksheet's rendering is appended followed by `'\\n\\n'` (the
four literal characters backslash, `n`, backslash, `n` — not a blank line),
and the concatenation is trimmed of actual whitespace at the ends. -/
def parseXlsxText (shared : List Str) (sheets : List (List SheetCell)) : Str :=
  jsTrim ((sheets.map fun s => parseWorksheet shared s ++ litBackN ++ litBackN).foldl (· ++ ·) [])

/-- Claim-side rendering of one row, as the spec words it: non-empty values
joined with a tab character. -/
def renderRowSpec (cols : List (Str × Str)) : Str :=
  let sortedCols := List.insertionSort (fun a b : Str => a ≤ b) (cols.map Prod.fst)
  let values := (sortedCols.map fun c => (getCol cols c).getD []).filter (fun v => !v.isEmpty)
  joinSep ['\t'] values

/-- Claim-side rendering of a worksheet: rows joined with a newline. -/
def parseWorksheetSpec (shared : List Str) (cells : List SheetCell) : Str :=
  let rows := buildRows shared cells
  let rowNums := List.insertionSort (fun a b : Nat => a ≤ b) (rows.map Prod.fst)
  joinSep ['\n']
    (((rowNums.map fun rn => renderRowSpec ((getRow rows rn).getD [])).filter (fun v => !v.isEmpty)))

/-- Claim-side rendering of a workbook: the sheets' renderings concatenated
separated by a blank line. -/
def parseXlsxTextSpec (shared : List Str) (sheets : List (List SheetCell)) : Str :=
  joinSep ['\n', '\n'] (sheets.map (parseWorksheetSpec shared))

/-- An uploaded file buffer: its byte length (`buffer.length`) and, for plain
text/CSV files, its UTF-8 decoding (`buffer.toString('utf8')`, which is all
`parseText` ever returns — documentParser.js lines 296-315). -/
structure JsBuffer where
  size : Nat
  text : Str
deriving DecidableEq

/-- The metadata object attached to a successful extraction, as a list of
named counters (tables/paragraphs/characters for DOCX, sheets for XLSX;
the empty object for plain text). -/
abbrev ExtractMeta := List (Str × Nat)

/-- The `{text, metadata}` record returned by `parseDocx`/`parseXlsx`. -/
structure ParseOut where
  text : Str
  metadata : ExtractMeta
deriving DecidableEq

/-- The result object of `DocumentParser.parseBuffer` (documentParser.js
lines 56-77): the error path omits the `metadata` field (`none`) and carries
an error message; the success path omits `error`. -/
structure ExtractResult where
  text : Str
  fileName : Str
  fileType : Str
  fileSize : Nat
  extractedAt : Str
  metadata : Option ExtractMeta
  success : Bool
  error : Option Str
deriving DecidableEq

/-- `fileName.toLowerCase()`, character by character (all file names at hand
are ASCII, where JS and Unicode simple lowercasing agree). -/
def toLowerStr (s : Str) : Str := s.map Char.toLower

/-- `String.prototype.split('.')`. -/
def splitDot : Str → List Str
  | [] => [[]]
  | '.' :: rest => [] :: splitDot rest
  | c :: rest =>
    match splitDot rest with
    | [] => [[c]]
    | g :: gs => (c :: g) :: gs

/-- `fileName.toLowerCase().split('.').pop() || ''` (documentParser.js line
23): the extension used when the MIME type is generic. -/
def fileExtOf (name : Str) : Str := ((splitDot (toLowerStr name)).getLast?).getD []

/-- The DOCX MIME type tested by `parseBuffer`. -/
def docxMime : Str := "application/vnd.openxmlformats-officedocument.wordprocessingml.document".data

/-- The XLSX MIME type tested by `parseBuffer`. -/
def xlsxMime : Str := "application/vnd.openxmlformats-officedocument.spreadsheetml.sheet".data

/-- The generic MIME type for which the filename extension decides. -/
def octetMime : Str := "application/octet-stream".data

/-- The size-limit error message thrown by `parseBuffer` (documentParser.js
line 19): it names the 10MB limit. -/
def sizeLimitMsg : Str := "ファイルサイズが10MBを超えています".data

/-- The error-path result of `parseBuffer` (documentParser.js lines 66-77):
empty text, echoed file name/type/size and timestamp, no metadata field,
`success: false` and the caught error's message. -/
def errResult (name mime : Str) (size : Nat) (now msg : Str) : ExtractResult :=
  ⟨[], name, mime, size, now, none, false, some msg⟩

/-- `DocumentParser.parseBuffer` (documentParser.js lines 12-78).  The two
ZIP-opening parsers (`parseDocx`, `parseXlsx`) are taken as parameters, since
they read the package through JSZip; a thrown error is modelled by
`Except.error` with the thrown message, caught by `parseBuffer`'s `catch`.
`now` stands for `new Date().toISOString()` evaluated at the start of the
call — ambient clock state, made an explicit parameter here.  The size check
is the first statement of the `try` block, before any MIME/extension
detection and before either parser is consulted. -/
def parseBuffer (pDocx pXlsx : JsBuffer → Except Str ParseOut)
    (buffer : JsBuffer) (fileName mime : Str) (now : Str) : ExtractResult :=
  if buffer.size > 10 * 1024 * 1024 then
    errResult fileName mime buffer.size now sizeLimitMsg
  else
    let ext := fileExtOf fileName
    let isDocx := mime == docxMime || (mime == octetMime && ext == "docx".data)
    let isXlsx := mime == xlsxMime || (mime == octetMime && ext == "xlsx".data)
    let isText := mime == "text/plain".data || ext == "txt".data
    let isCsv := mime == "text/csv".data || ext == "csv".data
    if isDocx then
      match pDocx buffer with
      | .ok out => ⟨out.text, fileName, mime, buffer.size, now, some out.metadata, true, none⟩
      | .error e => errResult fileName mime buffer.size now e
    else if isXlsx then
      match pXlsx buffer with
      | .ok out => ⟨out.text, fileName, mime, buffer.size, now, some out.metadata, true, none⟩
      | .error e => errResult fileName mime buffer.size now e
    else if isText || isCsv then
      ⟨buffer.text, fileName, mime, buffer.size, now, some [], true, none⟩
    else
      errResult fileName mime buffer.size now
        ("サポートされていないファイル形式です: ".data ++ mime ++ " (.".data ++ ext ++ ")".data)

/-- A rule whose correct form contains the JS replacement pattern `$&`. -/
def dollarRule : Rule := ⟨["ab".data], ['$', '&', 'X'], []⟩

/-- The rule table `{incorrect: ["aa"], correct: "a"}` used to probe
idempotence: well formed (the correct form `"a"` is not listed as an
incorrect form anywhere), yet replacing `"aa"` by `"a"` can leave a fresh
occurrence of `"aa"` behind. -/
def shrinkRule : Rule := ⟨["aa".data], "a".data, []⟩

/-- The rule of spec scenario 1. -/
def greetRule : Rule := ⟨["こんにちは。".data], "こんにちは、".data, []⟩

/-- A ledger entry whose corrected string contains the JS replacement
pattern `$&`. -/
def dollarChange : Change := ⟨"abc".data, ['$', '&', 'X'], 0, 3, ⟨[], [], []⟩⟩

/-- A shared-string cell containing the original of `dollarChange`. -/
def dollarCell : XCell := ⟨"s".data, "abc".data, "abc".data⟩

/-- The key list of a `SubMap`, in iteration order. -/
def mapKeys : SubMap → List Str
  | [] => []
  | (k, _) :: rest => k :: mapKeys rest

/-- Two maps that have the same keys in the same order and agree on every
key other than `o`. -/
def MapAgreeExcept (o : Str) (m m2 : SubMap) : Prop :=
  mapKeys m = mapKeys m2 ∧ ∀ k, k ≠ o → mapGet m k = mapGet m2 k

/-!  Theorems.  -/

theorem escGo_eq_of_no_backslash :
    ∀ (fuel : Nat) (s : Str), '\\' ∉ s → escGo fuel s = s := by
  intro fuel
  induction fuel with
  | zero => intro s _; cases s <;> rfl
  | succ n ih =>
    intro s hs
    match s with
    | [] => rfl
    | c :: rest =>
      have hrest : '\\' ∉ rest := fun h => hs (List.mem_cons_of_mem c h)
      have hcond : (metaChars.contains c && (rest.take 3 == ['\\', '\\', ']'])) = false := by
        cases htk : (rest.take 3 == ['\\', '\\', ']']) with
        | false => simp
        | true =>
          exact absurd (List.take_subset 3 rest (by rw [eq_of_beq htk]; simp)) hrest
      simp only [escGo, hcond, Bool.false_eq_true, if_false]
      rw [ih rest hrest]

theorem listPre_length {pat : Str} : ∀ {t : Str}, listPre pat t = true → pat.length ≤ t.length := by
  induction pat with
  | nil => intro t _; simp
  | cons p ps ih =>
    intro t h
    match t with
    | [] => simp [listPre] at h
    | c :: ts =>
      simp only [listPre, Bool.and_eq_true] at h
      simpa using ih h.2

theorem litFind_matchAt {pat : Str} :
    ∀ {t : Str} {k : Nat}, litFind pat t = some k → listPre pat (t.drop k) = true := by
  intro t
  induction t with
  | nil =>
    intro k h
    cases pat with
    | nil =>
      simp only [litFind, List.isEmpty_nil, if_true, Option.some.injEq] at h
      subst h
      rfl
    | cons p ps => simp [litFind] at h
  | cons c ts ih =>
    intro k h
    by_cases hp : listPre pat (c :: ts) = true
    · have hk : k = 0 := by simp [litFind, hp] at h; omega
      subst hk
      simpa using hp
    · have hp2 : listPre pat (c :: ts) = false := Bool.eq_false_iff.mpr hp
      simp only [litFind, hp2, Bool.false_eq_true, if_false, Option.map_eq_some'] at h
      obtain ⟨k2, hk2, rfl⟩ := h
      simpa [List.drop_succ_cons] using ih hk2

theorem litFind_leftmost {pat : Str} :
    ∀ {t : Str} {i : Nat}, listPre pat (t.drop i) = true →
      ∃ k, k ≤ i ∧ litFind pat t = some k := by
  intro t
  induction t with
  | nil =>
    intro i h
    refine ⟨0, Nat.zero_le i, ?_⟩
    rw [List.drop_nil] at h
    cases pat with
    | nil => rfl
    | cons p ps => simp [listPre] at h
  | cons c ts ih =>
    intro i h
    by_cases hp : listPre pat (c :: ts) = true
    · exact ⟨0, Nat.zero_le i, by simp [litFind, hp]⟩
    · have hp2 : listPre pat (c :: ts) = false := Bool.eq_false_iff.mpr hp
      cases i with
      | zero => rw [List.drop_zero] at h; exact absurd h hp
      | succ i2 =>
        obtain ⟨k, hk, hfind⟩ := ih (i := i2) (by simpa using h)
        exact ⟨k + 1, Nat.succ_le_succ hk, by simp [litFind, hp2, hfind]⟩

theorem litFind_none {pat t : Str} (h : litFind pat t = none) :
    ∀ i, listPre pat (t.drop i) = false := by
  intro i
  by_cases hp : listPre pat (t.drop i) = true
  · obtain ⟨k, _, hfind⟩ := litFind_leftmost hp
    rw [hfind] at h
    cases h
  · exact Bool.eq_false_iff.mpr hp

theorem scanGo_lower_bound {pat text : Str} :
    ∀ (fuel cur : Nat), ∀ j ∈ scanGo pat text cur fuel, cur ≤ j := by
  intro fuel
  induction fuel with
  | zero => intro cur j hj; simp [scanGo] at hj
  | succ n ih =>
    intro cur j hj
    by_cases hc : cur > text.length
    · simp [scanGo, hc] at hj
    · rw [scanGo, if_neg hc] at hj
      cases hfind : litFind pat (text.drop cur) with
      | none => rw [hfind] at hj; simp at hj
      | some k =>
        rw [hfind] at hj
        simp only [List.mem_cons] at hj
        rcases hj with rfl | hj
        · exact Nat.le_add_right cur k
        · have := ih _ _ hj
          by_cases hp : pat.isEmpty
          · simp only [hp, if_true] at this; omega
          · simp only [hp, Bool.false_eq_true, if_false] at this; omega

theorem scanGo_sound {pat text : Str} :
    ∀ (fuel cur : Nat), ∀ j ∈ scanGo pat text cur fuel,
      listPre pat (text.drop j) = true := by
  intro fuel
  induction fuel with
  | zero => intro cur j hj; simp [scanGo] at hj
  | succ n ih =>
    intro cur j hj
    by_cases hc : cur > text.length
    · simp [scanGo, hc] at hj
    · rw [scanGo, if_neg hc] at hj
      cases hfind : litFind pat (text.drop cur) with
      | none => rw [hfind] at hj; simp at hj
      | some k =>
        rw [hfind] at hj
        simp only [List.mem_cons] at hj
        rcases hj with rfl | hj
        · have := litFind_matchAt hfind
          rwa [List.drop_drop] at this
        · exact ih _ _ hj

theorem scanGo_chain {pat text : Str} (hpat : pat ≠ []) :
    ∀ (fuel cur : Nat),
      List.Chain' (fun a b => a + pat.length ≤ b) (scanGo pat text cur fuel) := by
  intro fuel
  induction fuel with
  | zero => intro cur; simp [scanGo]
  | succ n ih =>
    intro cur
    by_cases hc : cur > text.length
    · simp [scanGo, hc]
    · rw [scanGo, if_neg hc]
      cases hfind : litFind pat (text.drop cur) with
      | none => simp
      | some k =>
        have hpe : pat.isEmpty = false := by
          cases pat with
          | nil => exact absurd rfl hpat
          | cons _ _ => rfl
        simp only [hpe, Bool.false_eq_true, if_false]
        refine List.chain'_cons'.mpr ⟨?_, ih _⟩
        intro y hy
        have hmem : y ∈ scanGo pat text (cur + k + pat.length) n :=
          List.mem_of_mem_head? hy
        exact scanGo_lower_bound n _ y hmem

theorem scanGo_complete {pat text : Str} (hpat : pat ≠ []) :
    ∀ (fuel cur i : Nat), text.length + 2 ≤ cur + fuel → cur ≤ i →
      listPre pat (text.drop i) = true →
      ∃ j ∈ scanGo pat text cur fuel, j ≤ i ∧ i < j + pat.length := by
  intro fuel
  induction fuel with
  | zero =>
    intro cur i hfuel hcur hocc
    exfalso
    have hlen : text.length < i := by omega
    rw [List.drop_eq_nil_of_le (Nat.le_of_lt hlen)] at hocc
    cases pat with
    | nil => exact hpat rfl
    | cons _ _ => simp [listPre] at hocc
  | succ n ih =>
    intro cur i hfuel hcur hocc
    have hpatlen : 1 ≤ pat.length := by
      cases pat with
      | nil => exact absurd rfl hpat
      | cons _ _ => simp
    have hilen : i + pat.length ≤ text.length := by
      have := listPre_length hocc
      simp only [List.length_drop] at this
      by_cases hi : i ≤ text.length
      · omega
      · rw [List.drop_eq_nil_of_le (by omega)] at hocc
        cases pat with
        | nil => exact absurd rfl hpat
        | cons _ _ => simp [listPre] at hocc
    have hc : ¬ cur > text.length := by omega
    rw [scanGo, if_neg hc]
    have hocc2 : listPre pat ((text.drop cur).drop (i - cur)) = true := by
      rw [List.drop_drop, Nat.add_sub_cancel' hcur]
      exact hocc
    obtain ⟨k, hk, hfind⟩ := litFind_leftmost hocc2
    rw [hfind]
    have hpe : pat.isEmpty = false := by
      cases pat with
      | nil => exact absurd rfl hpat
      | cons _ _ => rfl
    simp only [hpe, Bool.false_eq_true, if_false]
    by_cases hcov : i < cur + k + pat.length
    · exact ⟨cur + k, List.mem_cons_self _ _, by omega, by omega⟩
    · have hnext : cur + k + pat.length ≤ i := by omega
      obtain ⟨j, hjmem, hji, hij⟩ :=
        ih (cur + k + pat.length) i (by omega) hnext hocc
      exact ⟨j, List.mem_cons_of_mem _ hjmem, hji, hij⟩

theorem expandRep_no_dollar (matched pre post : Str) :
    ∀ rep : Str, rep.contains '$' = false → expandRep matched pre post rep = rep := by
  intro rep
  induction rep with
  | nil => intro _; rfl
  | cons c rest ih =>
    intro h
    rw [List.contains_cons, Bool.or_eq_false_iff] at h
    have hc : ¬ c = '$' := by
      intro hc
      rw [hc] at h
      simp at h
    rw [expandRep.eq_def]
    simp only [hc, if_false]
    rw [ih h.2]

theorem buildReplaced_eq_lit (pat rep text : Str) (h : rep.contains '$' = false) :
    ∀ (ms : List Nat) (cur : Nat),
      buildReplaced pat rep text cur ms = buildReplacedLit pat rep text cur ms := by
  intro ms
  induction ms with
  | nil => intro cur; rfl
  | cons j js ih =>
    intro cur
    rw [buildReplaced, buildReplacedLit, expandRep_no_dollar _ _ _ _ h, ih]

theorem replaceAll_eq_lit (pat rep text : Str) (h : rep.contains '$' = false) :
    replaceAll pat rep text = litReplaceAll pat rep text :=
  buildReplaced_eq_lit pat rep text h _ _

theorem scanPositions_nil_of_litFind_none {pat text : Str} (h : litFind pat text = none) :
    scanPositions pat text = [] := by
  rw [scanPositions, scanGo]
  rw [if_neg (by omega)]
  rw [List.drop_zero, h]

theorem replaceAll_of_no_match {pat rep text : Str} (h : litFind pat text = none) :
    replaceAll pat rep text = text := by
  rw [replaceAll, scanPositions_nil_of_litFind_none h, buildReplaced, List.drop_zero]

/-- C1 (counterexample).  With the single rule
`{incorrect: ["ab"], correct: "$&X"}` (a metacharacter-free form, so matching
is literal) `proofread "ab"` appends the expected single `Change`, but the
working text becomes `"abX"`: a `$&` in the correct form is expanded by the
JS replacement rules to the matched text, so the occurrence is NOT replaced
by the correctForm `"$&X"` itself, contrary to the claim. -/
theorem proofread_dollar_counterexample :
    (proofread [dollarRule] "ab".data).correctedText = "abX".data ∧
    (proofread [dollarRule] "ab".data).changes =
      [⟨"ab".data, ['$', '&', 'X'], 0, 2, dollarRule⟩] ∧
    "abX".data ≠ ['$', '&', 'X'] := by decide

/-- C1 (amended).  For a metacharacter-free, non-empty incorrect form (so the
regex built by the source matches literally), the per-pair step of `proofread`
does exactly what the claim describes, except that the replacement inserts
the JS expansion of the correct form (which is the correct form itself
whenever it contains no `$`): (1) a pair whose form equals the correct form
is skipped, and otherwise one `Change` is appended per reported match, with
the recorded fields, and the working text is globally replaced; (2) every
reported match offset carries the form as the substring at that offset of the
working text at that moment; (3) matches are reported left to right and
non-overlapping (each at least `form.length` after the previous); (4) every
literal occurrence of the form overlaps a reported match (none is missed);
(5) when the correct form contains no `$` the global replacement is the plain
literal substitution. -/
theorem proofread_pair_scan (rule : Rule) (form : Str) (st : Str × List Change)
    (hmf : jsMetaFree form = true) (hne : form ≠ []) :
    (pairStep rule form st =
      if form = rule.correct then st
      else (replaceAll form rule.correct st.1,
            st.2 ++ (scanPositions form st.1).map fun s =>
              ⟨form, rule.correct, s, s + form.length, rule⟩))
    ∧ (∀ j ∈ scanPositions form st.1, listPre form (st.1.drop j) = true)
    ∧ List.Chain' (fun a b => a + form.length ≤ b) (scanPositions form st.1)
    ∧ (∀ i, listPre form (st.1.drop i) = true →
        ∃ j ∈ scanPositions form st.1, j ≤ i ∧ i < j + form.length)
    ∧ (rule.correct.contains '$' = false →
        replaceAll form rule.correct st.1 = litReplaceAll form rule.correct st.1) := by
  refine ⟨?_, ?_, ?_, ?_, ?_⟩
  · by_cases hfc : form = rule.correct
    · simp [pairStep, hfc]
    · rw [pairStep, if_neg hfc, if_neg hfc]
      cases hms : scanPositions form st.1 with
      | nil =>
        simp only [hms, List.isEmpty_nil, if_true, List.map_nil, List.append_nil]
        rw [replaceAll, hms, buildReplaced, List.drop_zero]
      | cons j js =>
        simp [hms]
  · exact scanGo_sound _ 0
  · exact scanGo_chain hne _ 0
  · intro i hi
    exact scanGo_complete hne _ 0 i (by omega) (Nat.zero_le i) hi
  · intro h
    exact replaceAll_eq_lit _ _ _ h

theorem proofread_pair_scan_witness :
    jsMetaFree "aa".data = true ∧ "aa".data ≠ [] ∧
    (pairStep shrinkRule "aa".data ("aaa".data, []) =
      if "aa".data = shrinkRule.correct then ("aaa".data, [])
      else (replaceAll "aa".data shrinkRule.correct "aaa".data,
            [] ++ (scanPositions "aa".data "aaa".data).map fun s =>
              ⟨"aa".data, shrinkRule.correct, s, s + "aa".data.length, shrinkRule⟩)) :=
  ⟨by decide, by decide,
    (proofread_pair_scan shrinkRule "aa".data ("aaa".data, []) (by decide) (by decide)).1⟩

/-- C3 (supporting evaluation).  The form `"a+"` has no literal occurrence in
`"aaa"`, yet `escapeRegExp` passes it through unchanged (its regex can only
match a metacharacter followed by `\\]`), so the source hands the raw pattern
`a+` to `new RegExp`, which matches `"aaa"` — the code then reports changes
for a text that contains none of the configured forms. -/
theorem escapeRegExp_passes_plus :
    litFind "a+".data "aaa".data = none ∧ escapeRegExp "a+".data = "a+".data := by decide

/-- C4 (counterexample).  The table `[{incorrect: ["aa"], correct: "a"}]` is
well formed in the claim's sense, yet on input `"aaa"` the first run yields
`"aa"` (one non-overlapping match of `"aa"` is replaced, and the leftover
`"a"` recombines with the replacement), and the second run still finds a
change: `proofread` is not idempotent. -/
theorem proofread_not_idempotent :
    wellFormedTable [shrinkRule] = true ∧
    (proofread [shrinkRule] "aaa".data).correctedText = "aa".data ∧
    (proofread [shrinkRule] ((proofread [shrinkRule] "aaa".data).correctedText)).totalChanges
      = 1 := by decide

theorem pairStep_id_of_no_occurrence {rule : Rule} {form : Str} {st : Str × List Change}
    (h : form = rule.correct ∨ litFind form st.1 = none) : pairStep rule form st = st := by
  by_cases hfc : form = rule.correct
  · rw [pairStep, if_pos hfc]
  · rcases h with h | h
    · exact absurd h hfc
    · rw [pairStep, if_neg hfc]
      simp [scanPositions_nil_of_litFind_none h]

theorem formsFold_id (rule : Rule) (t : Str) (chs : List Change) :
    ∀ forms : List Str, (∀ f ∈ forms, f = rule.correct ∨ litFind f t = none) →
      forms.foldl (fun st form => pairStep rule form st) (t, chs) = (t, chs) := by
  intro forms
  induction forms with
  | nil => intro _; rfl
  | cons f fs ih =>
    intro h
    rw [List.foldl_cons, pairStep_id_of_no_occurrence (h f (List.mem_cons_self f fs))]
    exact ih fun f2 hf2 => h f2 (List.mem_cons_of_mem f hf2)

theorem rulesFold_id (t : Str) :
    ∀ rules : List Rule,
      (∀ r ∈ rules, ∀ f ∈ r.incorrect, f = r.correct ∨ litFind f t = none) →
      rules.foldl
        (fun st rule => rule.incorrect.foldl (fun st form => pairStep rule form st) st)
        (t, []) = (t, []) := by
  intro rules
  induction rules with
  | nil => intro _; rfl
  | cons r rs ih =>
    intro h
    rw [List.foldl_cons,
      formsFold_id r t [] r.incorrect (fun f hf => h r (List.mem_cons_self r rs) f hf)]
    exact ih fun r2 hr2 f hf => h r2 (List.mem_cons_of_mem r hr2) f hf

/-- C4 (amended).  For a well-formed rule table whose forms are matched
literally (non-empty, metacharacter-free forms; `$`-free correct forms), if
the corrected text of a first `proofread` run contains no occurrence of any
incorrect form (other than forms equal to their own rule's correct form,
which are skipped), then a second run over that corrected text reports zero
changes. -/
theorem proofread_idempotent_of_no_residual (rules : List Rule) (text : Str)
    (hw : wellFormedTable rules = true)
    (hs : literalSafeTable rules = true)
    (hn : noResidual rules (proofread rules text).correctedText = true) :
    (proofread rules (proofread rules text).correctedText).totalChanges = 0 := by
  have h : ∀ r ∈ rules, ∀ f ∈ r.incorrect,
      f = r.correct ∨ litFind f (proofread rules text).correctedText = none := by
    intro r hr f hf
    have h1 := List.all_eq_true.mp (List.all_eq_true.mp hn r hr) f hf
    rcases Bool.or_eq_true_iff.mp h1 with h2 | h2
    · exact Or.inl (eq_of_beq h2)
    · exact Or.inr (Option.isNone_iff_eq_none.mp h2)
  have hcore : proofreadCore rules (proofread rules text).correctedText =
      ((proofread rules text).correctedText, []) :=
    rulesFold_id _ rules h
  rw [proofread, hcore]
  rfl

/-- C4 (amended) witness. -/
theorem proofread_idempotent_witness :
    wellFormedTable [shrinkRule] = true ∧
    literalSafeTable [shrinkRule] = true ∧
    noResidual [shrinkRule] (proofread [shrinkRule] "xy".data).correctedText = true ∧
    (proofread [shrinkRule] (proofread [shrinkRule] "xy".data).correctedText).totalChanges
      = 0 :=
  ⟨by decide, by decide, by decide,
    proofread_idempotent_of_no_residual [shrinkRule] "xy".data (by decide) (by decide)
      (by decide)⟩

/-- C5.  Spec scenario 1, evaluated: with the single rule
`{incorrectForms: ["こんにちは。"], correctForm: "こんにちは、"}` and input
`"こんにちは。元気ですか。"`, `proofread` returns corrected text
`"こんにちは、元気ですか。"`, one change in total, whose first (only) entry
records original `"こんにちは。"`, corrected `"こんにちは、"` and position
`{start: 0, end: 6}`. -/
theorem proofread_scenario1 :
    proofread [greetRule] "こんにちは。元気ですか。".data =
      ⟨"こんにちは。元気ですか。".data, "こんにちは、元気ですか。".data,
       [⟨"こんにちは。".data, "こんにちは、".data, 0, 6, greetRule⟩], 1⟩ := by decide

theorem distributeRuns_flat :
    ∀ (runs : List Str) (c : Str), runs ≠ [] → flatConcat (distributeRuns runs c) = c := by
  intro runs
  induction runs with
  | nil => intro c h; exact absurd rfl h
  | cons r rs ih =>
    intro c _
    cases rs with
    | nil => simp [distributeRuns, flatConcat]
    | cons r2 rs2 =>
      rw [distributeRuns]
      show c.take r.length ++ flatConcat (distributeRuns (r2 :: rs2) (c.drop r.length)) = c
      rw [ih (c.drop r.length) (by simp), List.take_append_drop]

theorem distributeRuns_length :
    ∀ (runs : List Str) (c : Str), runs ≠ [] →
      (distributeRuns runs c).length = runs.length := by
  intro runs
  induction runs with
  | nil => intro c h; exact absurd rfl h
  | cons r rs ih =>
    intro c _
    cases rs with
    | nil => rfl
    | cons r2 rs2 =>
      rw [distributeRuns]
      show (c.take r.length :: distributeRuns (r2 :: rs2) (c.drop r.length)).length = _
      simp [ih (c.drop r.length) (by simp)]

theorem distributeRuns_get_nonfinal :
    ∀ (runs : List Str) (c : Str) (i : Nat), i + 1 < runs.length →
      (distributeRuns runs c)[i]? =
        some ((c.drop (sumLens (runs.take i))).take ((runs[i]?.getD []).length)) := by
  intro runs
  induction runs with
  | nil => intro c i h; simp at h
  | cons r rs ih =>
    intro c i h
    cases rs with
    | nil => simp at h
    | cons r2 rs2 =>
      cases i with
      | zero =>
        simp [distributeRuns, sumLens]
      | succ i2 =>
        rw [distributeRuns]
        show (c.take r.length :: distributeRuns (r2 :: rs2) (c.drop r.length))[i2 + 1]? = _
        rw [List.getElem?_cons_succ]
        rw [ih (c.drop r.length) i2 (by simpa using h)]
        have hsum : sumLens ((r :: r2 :: rs2).take (i2 + 1)) =
            r.length + sumLens ((r2 :: rs2).take i2) := by
          simp [sumLens]
        rw [List.drop_drop, hsum]
        simp

theorem distributeRuns_get_final :
    ∀ (runs : List Str) (c : Str), runs ≠ [] →
      (distributeRuns runs c)[runs.length - 1]? =
        some (c.drop (sumLens (runs.take (runs.length - 1)))) := by
  intro runs
  induction runs with
  | nil => intro c h; exact absurd rfl h
  | cons r rs ih =>
    intro c _
    cases rs with
    | nil => simp [distributeRuns, sumLens]
    | cons r2 rs2 =>
      rw [distributeRuns]
      show (c.take r.length :: distributeRuns (r2 :: rs2) (c.drop r.length))[
        (r :: r2 :: rs2).length - 1]? = _
      have hlen : (r :: r2 :: rs2).length - 1 = ((r2 :: rs2).length - 1) + 1 := by
        simp
      rw [hlen, List.getElem?_cons_succ, ih (c.drop r.length) (by simp)]
      have hsum : sumLens ((r :: r2 :: rs2).take (((r2 :: rs2).length - 1) + 1)) =
          r.length + sumLens ((r2 :: rs2).take ((r2 :: rs2).length - 1)) := by
        simp [sumLens]
      rw [List.drop_drop, hsum]

/-- C2 (spec-modelled).  Under tier A — the trimmed re-rendered run text
equals the caller-supplied pre-correction text, so `tierAApply` fires — the
runs are sliced in document order: the output has one entry per run; entry
`i` (for every non-final `i`) is the prefix of the remaining corrected text
of length `runs[i].length`, i.e. the slice of `correctedText` starting at the
total length of the preceding runs; the final entry receives the whole
remaining text (its own prefix plus every leftover character); and the
concatenation of all entries is exactly `correctedText` — no character is
dropped or duplicated, so the total distributed length equals
`correctedText.length`. -/
theorem tierA_run_slicing (runs : List Str) (originalText correctedText : Str)
    (out : List Str) (hne : runs ≠ [])
    (happ : tierAApply runs originalText correctedText = some out) :
    flatConcat out = correctedText ∧
    sumLens out = correctedText.length ∧
    out.length = runs.length ∧
    (∀ i, i + 1 < runs.length →
      out[i]? = some ((correctedText.drop (sumLens (runs.take i))).take
        ((runs[i]?.getD []).length))) ∧
    out[runs.length - 1]? =
      some (correctedText.drop (sumLens (runs.take (runs.length - 1)))) := by
  have hout : out = distributeRuns runs correctedText := by
    rw [tierAApply] at happ
    by_cases hg : jsTrim (flatConcat runs) = jsTrim originalText
    · rw [if_pos hg] at happ
      exact (Option.some.injEq _ _ ▸ happ).symm
    · rw [if_neg hg] at happ
      cases happ
  subst hout
  have hflat := distributeRuns_flat runs correctedText hne
  refine ⟨hflat, ?_, distributeRuns_length runs correctedText hne,
    distributeRuns_get_nonfinal runs correctedText,
    distributeRuns_get_final runs correctedText hne⟩
  have : ∀ l : List Str, sumLens l = (flatConcat l).length := by
    intro l
    induction l with
    | nil => rfl
    | cons x xs ih => simp [sumLens, flatConcat] at ih ⊢; omega
  rw [this, hflat]

/-- C6 (counterexample).  The ledger entry `{original: "abc", corrected: "$&X"}`
and the string cell `"abc"`: the cell contains the ledger original, yet after
patching its value is `"abcX"` (the `$&` in the replacement is expanded by JS
to the matched text), not the literal-substitution result `"$&X"`. -/
theorem xlsx_patch_not_literal :
    generateCorrectedXlsxCells [dollarChange] [[("A1".data, dollarCell)]] =
      [[("A1".data, ⟨"s".data, "abcX".data, "abcX".data⟩)]] ∧
    litApplySubs (buildChangeMap [dollarChange]) dollarCell.v = ['$', '&', 'X'] ∧
    (litFind dollarChange.original dollarCell.v).isSome = true ∧
    dollarCell.t = "s".data ∧
    "abcX".data ≠ ['$', '&', 'X'] := by decide

theorem applySubsTrack_general (m : SubMap) :
    ∀ (s : Str) (b : Bool),
      (m.foldl (fun acc p =>
        let n := replaceAll p.1 p.2 acc.1
        (n, acc.2 || !(n == acc.1))) (s, b)).1 =
        m.foldl (fun acc p => replaceAll p.1 p.2 acc) s ∧
      ((m.foldl (fun acc p =>
          let n := replaceAll p.1 p.2 acc.1
          (n, acc.2 || !(n == acc.1))) (s, b)).2 = false →
        b = false ∧ m.foldl (fun acc p => replaceAll p.1 p.2 acc) s = s) := by
  induction m with
  | nil => intro s b; exact ⟨rfl, fun h => ⟨h, rfl⟩⟩
  | cons p rest ih =>
    intro s b
    rw [List.foldl_cons, List.foldl_cons]
    refine ⟨(ih _ _).1, ?_⟩
    intro h
    obtain ⟨hb, hs⟩ := (ih _ _).2 h
    rw [Bool.or_eq_false_iff] at hb
    have hn : replaceAll p.1 p.2 s = s := by
      have := hb.2
      rw [Bool.not_eq_false'] at this
      exact eq_of_beq this
    rw [hn] at hs ⊢
    exact ⟨hb.1, hs⟩

theorem litApplySubs_of_no_dollar :
    ∀ (m : SubMap) (s : Str), (∀ p ∈ m, p.2.contains '$' = false) →
      m.foldl (fun acc p => replaceAll p.1 p.2 acc) s = litApplySubs m s := by
  intro m
  induction m with
  | nil => intro s _; rfl
  | cons p rest ih =>
    intro s h
    rw [List.foldl_cons, litApplySubs, List.foldl_cons,
      replaceAll_eq_lit _ _ _ (h p (List.mem_cons_self p rest))]
    exact ih _ fun p2 hp2 => h p2 (List.mem_cons_of_mem p hp2)

/-- C6 (amended).  The cell-rewriting frame of `generateCorrectedXlsx`:
(1) a numeric, boolean or date typed cell is never modified; (2) a cell is
rewritten only if at least one substitution from the collapsed change map
actually changed its value while being applied; (3) a non-empty string-typed
cell ends with its value equal to the sequential literal-substitution result
of the map, provided the map's corrected strings contain no `$`
(JS replacement-pattern expansion is then the identity; the ledger originals
are assumed metacharacter-free, which is what makes the source's regexes
literal). -/
theorem xlsx_cell_frame (m : SubMap) (cell : XCell) :
    ((cell.t = "n".data ∨ cell.t = "b".data ∨ cell.t = "d".data) → patchCell m cell = cell)
    ∧ (patchCell m cell ≠ cell → (applySubsTrack m cell.v).2 = true)
    ∧ (cell.t = "s".data → cell.v ≠ [] →
        (∀ p ∈ m, p.2.contains '$' = false) →
        (patchCell m cell).v = litApplySubs m cell.v) := by
  refine ⟨?_, ?_, ?_⟩
  · intro ht
    have hts : (cell.t == "s".data) = false := by
      rcases ht with h | h | h <;> rw [h] <;> decide
    rw [patchCell, hts]
    simp
  · intro hne
    rw [patchCell] at hne
    by_cases hc : ((cell.t == "s".data) && !cell.v.isEmpty) = true
    · rw [if_pos hc] at hne
      by_cases hflag : (applySubsTrack m cell.v).2 = true
      · exact hflag
      · rw [Bool.not_eq_true] at hflag
        exact absurd (by simp only [hflag, Bool.false_eq_true, if_false]) hne
    · rw [Bool.not_eq_true] at hc
      rw [hc] at hne
      simp at hne
  · intro ht hv hd
    have hc : ((cell.t == "s".data) && !cell.v.isEmpty) = true := by
      rw [ht]
      simp [List.isEmpty_iff, hv]
    rw [patchCell, if_pos hc]
    have hfst := (applySubsTrack_general m cell.v false).1
    by_cases hflag : (applySubsTrack m cell.v).2 = true
    · simp only [hflag, if_true]
      show (applySubsTrack m cell.v).1 = _
      rw [applySubsTrack, hfst, litApplySubs_of_no_dollar m cell.v hd]
    · rw [Bool.not_eq_true] at hflag
      simp only [hflag, Bool.false_eq_true, if_false]
      have := (applySubsTrack_general m cell.v false).2 (by rw [← applySubsTrack, hflag])
      rw [← litApplySubs_of_no_dollar m cell.v hd, this.2]

/-- C6 (amended) witness. -/
theorem xlsx_cell_frame_witness :
    (patchCell [("5".data, "6".data)] ⟨"n".data, "5".data, "5".data⟩ =
      ⟨"n".data, "5".data, "5".data⟩) ∧
    ((applySubsTrack [("a".data, "x".data)] "ab".data).2 = true) ∧
    ((patchCell [("a".data, "x".data)] ⟨"s".data, "ab".data, "ab".data⟩).v =
      litApplySubs [("a".data, "x".data)] "ab".data) :=
  ⟨(xlsx_cell_frame [("5".data, "6".data)] ⟨"n".data, "5".data, "5".data⟩).1 (Or.inl rfl),
   (xlsx_cell_frame [("a".data, "x".data)] ⟨"s".data, "ab".data, "ab".data⟩).2.1 (by decide),
   (xlsx_cell_frame [("a".data, "x".data)] ⟨"s".data, "ab".data, "ab".data⟩).2.2 rfl
     (by decide) (by decide)⟩

theorem mapGet_set_self : ∀ (m : SubMap) (k v : Str), mapGet (mapSet m k v) k = some v := by
  intro m k v
  induction m with
  | nil => simp [mapSet, mapGet]
  | cons p rest ih =>
    obtain ⟨a, b⟩ := p
    by_cases h : a = k
    · rw [mapSet, if_pos h, mapGet, if_pos h]
    · rw [mapSet, if_neg h, mapGet, if_neg h]
      exact ih

theorem mapKeys_cons (a b : Str) (rest : SubMap) :
    mapKeys ((a, b) :: rest) = a :: mapKeys rest := rfl

theorem mapGet_set_ne : ∀ (m : SubMap) (k v k2 : Str), k2 ≠ k →
    mapGet (mapSet m k v) k2 = mapGet m k2 := by
  intro m k v k2 hne
  induction m with
  | nil =>
    show mapGet [(k, v)] k2 = none
    rw [mapGet, if_neg (fun h => hne h.symm)]
    rfl
  | cons p rest ih =>
    obtain ⟨a, b⟩ := p
    by_cases h : a = k
    · rw [mapSet, if_pos h, mapGet, mapGet]
      have hak2 : ¬ a = k2 := fun h2 => hne (h2.symm.trans h)
      rw [if_neg hak2, if_neg hak2]
    · rw [mapSet, if_neg h, mapGet, mapGet]
      by_cases h2 : a = k2
      · rw [if_pos h2, if_pos h2]
      · rw [if_neg h2, if_neg h2]
        exact ih

theorem mapKeys_set : ∀ (m : SubMap) (k v : Str),
    mapKeys (mapSet m k v) =
      if k ∈ mapKeys m then mapKeys m else mapKeys m ++ [k] := by
  intro m
  induction m with
  | nil => intro k v; simp [mapSet, mapKeys]
  | cons p rest ih =>
    obtain ⟨a, b⟩ := p
    intro k v
    by_cases h : a = k
    · rw [mapSet, if_pos h]
      have hmem : k ∈ mapKeys ((a, b) :: rest) := by
        rw [mapKeys_cons, ← h]
        exact List.mem_cons_self a _
      rw [if_pos hmem, mapKeys_cons, mapKeys_cons]
    · rw [mapSet, if_neg h]
      rw [show ((a, b) :: mapSet rest k v : SubMap) = (a, b) :: mapSet rest k v from rfl]
      rw [mapKeys_cons, mapKeys_cons, ih k v]
      by_cases hmem : k ∈ mapKeys rest
      · rw [if_pos hmem, if_pos (List.mem_cons_of_mem a hmem)]
      · rw [if_neg hmem, if_neg ?_]
        · rfl
        · intro hcon
          rcases List.mem_cons.mp hcon with h2 | h2
          · exact h h2.symm
          · exact hmem h2

theorem mapGet_none_of_not_mem : ∀ (m : SubMap) (k : Str), k ∉ mapKeys m →
    mapGet m k = none := by
  intro m
  induction m with
  | nil => intro k _; rfl
  | cons p rest ih =>
    obtain ⟨a, b⟩ := p
    intro k h
    rw [mapKeys_cons] at h
    rw [mapGet,
      if_neg (fun h2 => h (by rw [← h2]; exact List.mem_cons_self a (mapKeys rest)))]
    exact ih k fun h2 => h (List.mem_cons_of_mem a h2)

theorem mapKeys_nodup_set (m : SubMap) (k v : Str) (h : (mapKeys m).Nodup) :
    (mapKeys (mapSet m k v)).Nodup := by
  rw [mapKeys_set]
  by_cases hmem : k ∈ mapKeys m
  · rw [if_pos hmem]; exact h
  · rw [if_neg hmem]
    simp [List.nodup_append, h, hmem]

theorem subMap_ext : ∀ m m2 : SubMap, mapKeys m = mapKeys m2 → (mapKeys m).Nodup →
    (∀ k, mapGet m k = mapGet m2 k) → m = m2 := by
  intro m
  induction m with
  | nil =>
    intro m2 hkeys _ _
    cases m2 with
    | nil => rfl
    | cons p rest =>
      obtain ⟨a, b⟩ := p
      rw [mapKeys_cons] at hkeys
      cases hkeys
  | cons p rest ih =>
    intro m2 hkeys hnd hget
    obtain ⟨a, b⟩ := p
    cases m2 with
    | nil =>
      rw [mapKeys_cons] at hkeys
      cases hkeys
    | cons p2 rest2 =>
      obtain ⟨a2, b2⟩ := p2
      rw [mapKeys_cons, mapKeys_cons] at hkeys
      injection hkeys with hk htail
      rw [mapKeys_cons] at hnd
      have hnd2 := List.nodup_cons.mp hnd
      have hv : b = b2 := by
        have h1 : mapGet ((a, b) :: rest) a = some b := by rw [mapGet, if_pos rfl]
        have h2 : mapGet ((a2, b2) :: rest2) a = some b2 := by
          rw [mapGet, if_pos hk.symm]
        have := hget a
        rw [h1, h2] at this
        exact Option.some.inj this
      have hout2 : a ∉ mapKeys rest2 := htail ▸ hnd2.1
      have hrest : rest = rest2 := by
        refine ih rest2 htail hnd2.2 ?_
        intro k
        by_cases hkp : k = a
        · subst hkp
          rw [mapGet_none_of_not_mem rest k hnd2.1, mapGet_none_of_not_mem rest2 k hout2]
        · have := hget k
          have h1 : mapGet ((a, b) :: rest) k = mapGet rest k := by
            rw [mapGet, if_neg fun h2 => hkp h2.symm]
          have h2 : mapGet ((a2, b2) :: rest2) k = mapGet rest2 k := by
            rw [mapGet, if_neg fun h2 => hkp (hk.trans h2).symm]
          rw [h1, h2] at this
          exact this
      rw [hk, hv, hrest]

theorem mapAgree_set {o : Str} {m m2 : SubMap} (h : MapAgreeExcept o m m2) (k v : Str) :
    MapAgreeExcept o (mapSet m k v) (mapSet m2 k v) := by
  constructor
  · rw [mapKeys_set, mapKeys_set, h.1]
  · intro k2 hk2
    by_cases hkk : k2 = k
    · subst hkk
      rw [mapGet_set_self, mapGet_set_self]
    · rw [mapGet_set_ne _ _ _ _ hkk, mapGet_set_ne _ _ _ _ hkk]
      exact h.2 k2 hk2

theorem mapAgree_collapse {o : Str} {m m2 : SubMap} (h : MapAgreeExcept o m m2)
    (hnd : (mapKeys m).Nodup) (c : Str) : mapSet m o c = mapSet m2 o c := by
  refine subMap_ext _ _ ?_ ?_ ?_
  · rw [mapKeys_set, mapKeys_set, h.1]
  · exact mapKeys_nodup_set m o c hnd
  · intro k
    by_cases hk : k = o
    · subst hk
      rw [mapGet_set_self, mapGet_set_self]
    · rw [mapGet_set_ne _ _ _ _ hk, mapGet_set_ne _ _ _ _ hk]
      exact h.2 k hk

theorem mapAgree_fold {o : Str} :
    ∀ (l : List Change) {m m2 : SubMap}, MapAgreeExcept o m m2 →
      MapAgreeExcept o (l.foldl (fun m ch => mapSet m ch.original ch.corrected) m)
        (l.foldl (fun m ch => mapSet m ch.original ch.corrected) m2) := by
  intro l
  induction l with
  | nil => intro m m2 h; exact h
  | cons ch rest ih =>
    intro m m2 h
    rw [List.foldl_cons, List.foldl_cons]
    exact ih (mapAgree_set h ch.original ch.corrected)

theorem mapKeys_nodup_fold :
    ∀ (l : List Change) (m : SubMap), (mapKeys m).Nodup →
      (mapKeys (l.foldl (fun m ch => mapSet m ch.original ch.corrected) m)).Nodup := by
  intro l
  induction l with
  | nil => intro m h; exact h
  | cons ch rest ih =>
    intro m h
    rw [List.foldl_cons]
    exact ih _ (mapKeys_nodup_set m ch.original ch.corrected h)

theorem mapGet_fold_of_not_key {k : Str} :
    ∀ (l : List Change) (m : SubMap), (∀ ch ∈ l, ch.original ≠ k) →
      mapGet (l.foldl (fun m ch => mapSet m ch.original ch.corrected) m) k = mapGet m k := by
  intro l
  induction l with
  | nil => intro m _; rfl
  | cons ch rest ih =>
    intro m h
    rw [List.foldl_cons, ih _ fun c hc => h c (List.mem_cons_of_mem ch hc),
      mapGet_set_ne _ _ _ _ (fun h2 => h ch (List.mem_cons_self ch rest) h2.symm)]

/-- C10.  When a change ledger contains two entries with the same original
(the first at some position before the second, and no later entry sharing
that original), `generateCorrectedXlsx`'s collapsed change map holds the
LATER entry's corrected string at that original, the whole map is independent
of the earlier entry's corrected string, and consequently every patched cell
is too: the earlier entry has no effect on any cell. -/
theorem xlsx_changeMap_later_wins (l1 l2 l3 : List Change) (ch1 ch2 : Change)
    (hdup : ch1.original = ch2.original)
    (hdiff : ch1.corrected ≠ ch2.corrected)
    (hlast : ∀ ch ∈ l3, ch.original ≠ ch2.original) :
    mapGet (buildChangeMap (l1 ++ ch1 :: l2 ++ ch2 :: l3)) ch2.original
      = some ch2.corrected
    ∧ (∀ ch3 : Change, ch3.original = ch1.original →
        buildChangeMap (l1 ++ ch1 :: l2 ++ ch2 :: l3) =
          buildChangeMap (l1 ++ ch3 :: l2 ++ ch2 :: l3))
    ∧ (∀ (ch3 : Change) (cell : XCell), ch3.original = ch1.original →
        patchCell (buildChangeMap (l1 ++ ch1 :: l2 ++ ch2 :: l3)) cell =
          patchCell (buildChangeMap (l1 ++ ch3 :: l2 ++ ch2 :: l3)) cell) := by
  have hsplit : ∀ ch : Change,
      buildChangeMap (l1 ++ ch :: l2 ++ ch2 :: l3) =
        l3.foldl (fun m c => mapSet m c.original c.corrected)
          (mapSet
            (l2.foldl (fun m c => mapSet m c.original c.corrected)
              (mapSet (l1.foldl (fun m c => mapSet m c.original c.corrected) [])
                ch.original ch.corrected))
            ch2.original ch2.corrected) := by
    intro ch
    rw [buildChangeMap]
    rw [List.foldl_append, List.foldl_cons, List.foldl_append, List.foldl_cons]
  have hmain : ∀ ch3 : Change, ch3.original = ch1.original →
      buildChangeMap (l1 ++ ch1 :: l2 ++ ch2 :: l3) =
        buildChangeMap (l1 ++ ch3 :: l2 ++ ch2 :: l3) := by
    intro ch3 h3
    rw [hsplit ch1, hsplit ch3, h3]
    have hagree : MapAgreeExcept ch1.original
        (l2.foldl (fun m c => mapSet m c.original c.corrected)
          (mapSet (l1.foldl (fun m c => mapSet m c.original c.corrected) [])
            ch1.original ch1.corrected))
        (l2.foldl (fun m c => mapSet m c.original c.corrected)
          (mapSet (l1.foldl (fun m c => mapSet m c.original c.corrected) [])
            ch1.original ch3.corrected)) := by
      refine mapAgree_fold l2 ?_
      constructor
      · rw [mapKeys_set, mapKeys_set]
      · intro k hk
        rw [mapGet_set_ne _ _ _ _ hk, mapGet_set_ne _ _ _ _ hk]
    have hnd : (mapKeys
        (l2.foldl (fun m c => mapSet m c.original c.corrected)
          (mapSet (l1.foldl (fun m c => mapSet m c.original c.corrected) [])
            ch1.original ch1.corrected))).Nodup := by
      refine mapKeys_nodup_fold l2 _ ?_
      refine mapKeys_nodup_set _ _ _ ?_
      refine mapKeys_nodup_fold l1 [] ?_
      exact List.nodup_nil
    rw [← hdup]
    rw [mapAgree_collapse hagree hnd ch2.corrected]
  refine ⟨?_, hmain, ?_⟩
  · rw [hsplit ch1, mapGet_fold_of_not_key l3 _ hlast, mapGet_set_self]
  · intro ch3 cell h3
    rw [hmain ch3 h3]

/-- C10 witness. -/
theorem xlsx_changeMap_later_wins_witness :
    mapGet (buildChangeMap
        [⟨"a".data, "b".data, 0, 1, ⟨[], [], []⟩⟩, ⟨"a".data, "c".data, 0, 1, ⟨[], [], []⟩⟩])
      "a".data = some "c".data
    ∧ buildChangeMap
        [⟨"a".data, "b".data, 0, 1, ⟨[], [], []⟩⟩, ⟨"a".data, "c".data, 0, 1, ⟨[], [], []⟩⟩] =
      buildChangeMap
        [⟨"a".data, "z".data, 0, 1, ⟨[], [], []⟩⟩, ⟨"a".data, "c".data, 0, 1, ⟨[], [], []⟩⟩]
    ∧ patchCell (buildChangeMap
        [⟨"a".data, "b".data, 0, 1, ⟨[], [], []⟩⟩, ⟨"a".data, "c".data, 0, 1, ⟨[], [], []⟩⟩])
        ⟨"s".data, "a".data, "a".data⟩ =
      patchCell (buildChangeMap
        [⟨"a".data, "z".data, 0, 1, ⟨[], [], []⟩⟩, ⟨"a".data, "c".data, 0, 1, ⟨[], [], []⟩⟩])
        ⟨"s".data, "a".data, "a".data⟩ :=
  have h := xlsx_changeMap_later_wins [] [] []
    ⟨"a".data, "b".data, 0, 1, ⟨[], [], []⟩⟩ ⟨"a".data, "c".data, 0, 1, ⟨[], [], []⟩⟩
    rfl (by decide) (by decide)
  ⟨h.1, h.2.1 ⟨"a".data, "z".data, 0, 1, ⟨[], [], []⟩⟩ rfl,
    h.2.2 ⟨"a".data, "z".data, 0, 1, ⟨[], [], []⟩⟩ ⟨"s".data, "a".data, "a".data⟩ rfl⟩

/-- C7.  For every buffer whose size exceeds 10 MiB, `parseBuffer` returns
the structured error result naming the 10MB limit — for EVERY pair of
DOCX/XLSX sub-parsers, every file name, every MIME type and every clock
value: the size check fires before format detection, and neither package
parser is ever consulted.  The error message contains the substring
`"10MB"`. -/
theorem parseBuffer_size_limit (pDocx pXlsx : JsBuffer → Except Str ParseOut)
    (buffer : JsBuffer) (name mime now : Str)
    (h : buffer.size > 10 * 1024 * 1024) :
    parseBuffer pDocx pXlsx buffer name mime now =
      errResult name mime buffer.size now sizeLimitMsg ∧
    List.IsInfix "10MB".data sizeLimitMsg :=
  ⟨by rw [parseBuffer, if_pos h],
   ⟨"ファイルサイズが".data, "を超えています".data, by decide⟩⟩

/-- C7 witness. -/
theorem parseBuffer_size_limit_witness :
    (11534336 : Nat) > 10 * 1024 * 1024 ∧
    (parseBuffer (fun _ => .error []) (fun _ => .error []) ⟨11534336, []⟩
        "a.docx".data octetMime "t".data =
      errResult "a.docx".data octetMime 11534336 "t".data sizeLimitMsg ∧
    List.IsInfix "10MB".data sizeLimitMsg) :=
  ⟨by decide,
   parseBuffer_size_limit (fun _ => .error []) (fun _ => .error []) ⟨11534336, []⟩
     "a.docx".data octetMime "t".data (by decide)⟩

/-- C9 (counterexample).  The extraction result of `parseBuffer` embeds
`new Date().toISOString()` — ambient clock state outside the explicit
inputs — in its `extractedAt` field: two invocations with identical buffer,
file name and MIME type but different clock readings produce different
results, so extraction is not a pure function of its explicit inputs plus
the rule table. -/
theorem parseBuffer_clock_dependent :
    parseBuffer (fun _ => .error []) (fun _ => .error []) ⟨3, "abc".data⟩
        "a.txt".data "text/plain".data "2024-01-01T00:00:00.000Z".data ≠
      parseBuffer (fun _ => .error []) (fun _ => .error []) ⟨3, "abc".data⟩
        "a.txt".data "text/plain".data "2024-01-01T00:00:01.000Z".data := by
  decide

/-- C9 (amended).  Apart from the `extractedAt` timestamp, `parseBuffer` is a
deterministic function of its explicit inputs (buffer, file name, MIME type)
and the two sub-parsers: overwriting `extractedAt` with a fixed value makes
the results of any two invocations with identical inputs equal, whatever the
two clock readings were.  (`proofread` takes no clock at all: it is a plain
function of the rule table and the input text in this embedding.) -/
theorem parseBuffer_deterministic_modulo_clock
    (pDocx pXlsx : JsBuffer → Except Str ParseOut) (buffer : JsBuffer)
    (name mime now now2 : Str) :
    { parseBuffer pDocx pXlsx buffer name mime now with extractedAt := [] } =
      { parseBuffer pDocx pXlsx buffer name mime now2 with extractedAt := [] } := by
  rw [parseBuffer, parseBuffer, errResult]
  by_cases hs : buffer.size > 10 * 1024 * 1024
  · rw [if_pos hs, if_pos hs]
    rfl
  · rw [if_neg hs, if_neg hs]
    by_cases hd : (mime == docxMime || (mime == octetMime && fileExtOf name == "docx".data))
      = true
    · simp only [hd, if_true]
      cases pDocx buffer <;> rfl
    · rw [Bool.not_eq_true] at hd
      simp only [hd, Bool.false_eq_true, if_false]
      by_cases hx : (mime == xlsxMime || (mime == octetMime && fileExtOf name == "xlsx".data))
        = true
      · simp only [hx, if_true]
        cases pXlsx buffer <;> rfl
      · rw [Bool.not_eq_true] at hx
        simp only [hx, Bool.false_eq_true, if_false]
        by_cases ht : ((mime == "text/plain".data || fileExtOf name == "txt".data)
            || (mime == "text/csv".data || fileExtOf name == "csv".data)) = true
        · simp only [ht, if_true]
        · rw [Bool.not_eq_true] at ht
          simp only [ht, Bool.false_eq_true, if_false]
          rfl

theorem foldl_append_eq_flat : ∀ (l : List Str) (acc : Str),
    l.foldl (· ++ ·) acc = acc ++ flatConcat l := by
  intro l
  induction l with
  | nil => intro acc; simp [flatConcat]
  | cons x xs ih =>
    intro acc
    rw [List.foldl_cons, ih]
    simp [flatConcat, List.append_assoc]

theorem getCol_set_self : ∀ (cols : List (Str × Str)) (c v : Str),
    getCol (setCol cols c v) c = some v := by
  intro cols c v
  induction cols with
  | nil => simp [setCol, getCol]
  | cons p rest ih =>
    obtain ⟨a, b⟩ := p
    by_cases h : a = c
    · rw [setCol, if_pos h, getCol, if_pos h]
    · rw [setCol, if_neg h, getCol, if_neg h]
      exact ih

theorem getCol_set_ne : ∀ (cols : List (Str × Str)) (c v c2 : Str), c2 ≠ c →
    getCol (setCol cols c v) c2 = getCol cols c2 := by
  intro cols c v c2 hne
  induction cols with
  | nil =>
    show getCol [(c, v)] c2 = none
    rw [getCol, if_neg (fun h => hne h.symm)]
    rfl
  | cons p rest ih =>
    obtain ⟨a, b⟩ := p
    by_cases h : a = c
    · rw [setCol, if_pos h, getCol, getCol]
      have hac2 : ¬ a = c2 := fun h2 => hne (h2.symm.trans h)
      rw [if_neg hac2, if_neg hac2]
    · rw [setCol, if_neg h, getCol, getCol]
      by_cases h2 : a = c2
      · rw [if_pos h2, if_pos h2]
      · rw [if_neg h2, if_neg h2]
        exact ih

theorem getRow_cons (r3 : Nat) (cols : List (Str × Str)) (rest : RowMap) (r : Nat) :
    getRow ((r3, cols) :: rest) r = if r3 = r then some cols else getRow rest r := rfl

theorem getCol_cons (a b : Str) (rest : List (Str × Str)) (c : Str) :
    getCol ((a, b) :: rest) c = if a = c then some b else getCol rest c := rfl

theorem getRow_setRowCol (rm : RowMap) (r2 : Nat) (c2 v : Str) (r : Nat) (c : Str) :
    ((getRow (setRowCol rm r2 c2 v) r).bind fun cols => getCol cols c) =
      if r2 = r ∧ c2 = c then some v
      else (getRow rm r).bind fun cols => getCol cols c := by
  induction rm with
  | nil =>
    show ((getRow [(r2, [(c2, v)])] r).bind fun cols => getCol cols c) = _
    rw [getRow_cons]
    by_cases hr : r2 = r
    · rw [if_pos hr, Option.some_bind, getCol_cons]
      by_cases hc : c2 = c
      · rw [if_pos hc, if_pos ⟨hr, hc⟩]
      · rw [if_neg hc, if_neg (fun h => hc h.2)]
        rfl
    · rw [if_neg hr, if_neg (fun h => hr h.1)]
  | cons p rest ih =>
    obtain ⟨r3, cols3⟩ := p
    by_cases h32 : r3 = r2
    · rw [setRowCol, if_pos h32, getRow_cons, getRow_cons]
      by_cases hr : r3 = r
      · rw [if_pos hr, if_pos hr, Option.some_bind, Option.some_bind]
        have hr2 : r2 = r := h32 ▸ hr
        by_cases hc : c2 = c
        · rw [if_pos ⟨hr2, hc⟩, hc, getCol_set_self]
        · rw [if_neg (fun h => hc h.2), getCol_set_ne cols3 c2 v c (fun h => hc h.symm)]
      · have hr2 : ¬ r2 = r := fun h => hr (h32.trans h)
        rw [if_neg hr, if_neg hr, if_neg (fun h => hr2 h.1)]
    · rw [setRowCol, if_neg h32, getRow_cons, getRow_cons]
      by_cases hr : r3 = r
      · rw [if_pos hr, if_pos hr]
        have hr2 : ¬ r2 = r := fun h => h32 (h.symm ▸ hr ▸ rfl)
        rw [if_neg (fun h => hr2 h.1)]
      · rw [if_neg hr, if_neg hr]
        exact ih

theorem rowsFold_value (shared : List Str) :
    ∀ (cells : List SheetCell) (rm : RowMap) (r : Nat) (c : Str),
      ((getRow
          (cells.foldl (fun rm x => setRowCol rm x.row x.col (resolveValue shared x)) rm)
          r).bind fun cols => getCol cols c) =
      (match (cells.filter fun x => x.row == r && x.col == c).getLast? with
       | some x => some (resolveValue shared x)
       | none => (getRow rm r).bind fun cols => getCol cols c) := by
  intro cells
  induction cells using List.reverseRecOn with
  | nil => intro rm r c; rfl
  | append_singleton init x ih =>
    intro rm r c
    rw [List.foldl_append, List.foldl_cons, List.foldl_nil, getRow_setRowCol,
      List.filter_append]
    by_cases hp : (x.row == r && x.col == c) = true
    · have hfil : List.filter (fun x => x.row == r && x.col == c) [x] = [x] := by
        simp only [List.filter, hp]
      rw [hfil, List.getLast?_concat]
      rw [Bool.and_eq_true] at hp
      rw [if_pos ⟨beq_iff_eq.mp hp.1, eq_of_beq hp.2⟩]
    · have hfil : List.filter (fun x => x.row == r && x.col == c) [x] = [] := by
        rw [Bool.not_eq_true] at hp
        simp only [List.filter, hp]
      rw [hfil, List.append_nil]
      have hcond : ¬ (x.row = r ∧ x.col = c) := by
        intro h2
        apply hp
        rw [Bool.and_eq_true]
        exact ⟨beq_iff_eq.mpr h2.1, beq_iff_eq.mpr h2.2⟩
      rw [if_neg hcond]
      exact ih rm r c

/-- C8 (counterexample).  A worksheet with the two cells `A1 = "x"`,
`B1 = "y"`: the source joins the row's values with the literal two-character
sequence `\t` (backslash, `t`) and ends the row with the literal sequence
`\n`, then appends the literal four-character sequence `\n\n` after the
sheet (not trimmed away, since a backslash is not whitespace) — the claimed
tab/newline/blank-line rendering differs. -/
theorem parseXlsx_separator_counterexample :
    parseXlsxText [] [[⟨"A".data, 1, [], "x".data⟩, ⟨"B".data, 1, [], "y".data⟩]] =
      "x\\ty\\n\\n\\n".data ∧
    parseXlsxTextSpec [] [[⟨"A".data, 1, [], "x".data⟩, ⟨"B".data, 1, [], "y".data⟩]] =
      ['x', '\t', 'y'] ∧
    parseXlsxText [] [[⟨"A".data, 1, [], "x".data⟩, ⟨"B".data, 1, [], "y".data⟩]] ≠
      parseXlsxTextSpec [] [[⟨"A".data, 1, [], "x".data⟩, ⟨"B".data, 1, [], "y".data⟩]] := by
  decide

/-- C8 (amended).  The worksheet rendering of `parseWorksheet`/`parseXlsx`:
(1) the rows are rendered in ascending numeric row-number order — there is a
sorted permutation `rns` of the stored row numbers such that the output is
the concatenation of the row renderings in that order; (2) within a row the
values are ordered by ascending plain string comparison of the column
letters (a sorted permutation of the stored column keys); a row's non-empty
values are joined with the literal two-character sequence `\t` and the row
rendering ends with the literal sequence `\n` (an empty row contributes
nothing); (3) the stored value at `(row, column)` is the resolved value of
the LAST parsed cell with that address; (4) the sheet renderings are
concatenated, each followed by the literal four-character sequence `\n\n`,
and the result trimmed of actual leading/trailing whitespace. -/
theorem parseXlsx_rendering (shared : List Str) (cells : List SheetCell)
    (sheets : List (List SheetCell)) :
    (∃ rns : List Nat,
      rns.Sorted (· ≤ ·) ∧
      rns.Perm ((buildRows shared cells).map Prod.fst) ∧
      parseWorksheet shared cells =
        flatConcat (rns.map fun rn =>
          renderRow ((getRow (buildRows shared cells) rn).getD [])))
    ∧ (∀ cols : List (Str × Str), ∃ cs : List Str,
        cs.Sorted (· ≤ ·) ∧
        cs.Perm (cols.map Prod.fst) ∧
        renderRow cols =
          (if ((cs.map fun c => (getCol cols c).getD []).filter
                fun v => !v.isEmpty).isEmpty
           then []
           else joinSep litBackT ((cs.map fun c => (getCol cols c).getD []).filter
                  fun v => !v.isEmpty) ++ litBackN))
    ∧ (∀ (r : Nat) (c : Str),
        ((getRow (buildRows shared cells) r).bind fun cols => getCol cols c) =
          ((cells.filter fun x => x.row == r && x.col == c).getLast?).map
            (resolveValue shared))
    ∧ parseXlsxText shared sheets =
        jsTrim (flatConcat
          (sheets.map fun s => parseWorksheet shared s ++ litBackN ++ litBackN)) := by
  refine ⟨?_, ?_, ?_, ?_⟩
  · refine ⟨List.insertionSort (fun a b : Nat => a ≤ b) ((buildRows shared cells).map Prod.fst),
      List.sorted_insertionSort _ _, List.perm_insertionSort _ _, ?_⟩
    rw [parseWorksheet, foldl_append_eq_flat, List.nil_append]
  · intro cols
    refine ⟨List.insertionSort (fun a b : Str => a ≤ b) (cols.map Prod.fst),
      List.sorted_insertionSort _ _, List.perm_insertionSort _ _, rfl⟩
  · intro r c
    have h := rowsFold_value shared cells [] r c
    rw [show buildRows shared cells =
      cells.foldl (fun rm x => setRowCol rm x.row x.col (resolveValue shared x)) [] from rfl,
      h]
    cases hl : (cells.filter fun x => x.row == r && x.col == c).getLast? <;>
      simp [hl, getRow]
  · rw [parseXlsxText, foldl_append_eq_flat, List.nil_append]

/-- C2 witness. -/
theorem tierA_run_slicing_witness :
    (["ab".data, "cd".data] : List Str) ≠ [] ∧
    tierAApply ["ab".data, "cd".data] "abcd".data "aXcdZ".data =
      some ["aX".data, "cdZ".data] ∧
    flatConcat ["aX".data, "cdZ".data] = "aXcdZ".data :=
  ⟨by decide, by decide,
    (tierA_run_slicing ["ab".data, "cd".data] "abcd".data "aXcdZ".data
      ["aX".data, "cdZ".data] (by decide) (by decide)).1⟩
